import Mathlib

/-!
Verification of the `edgy` edge-loop utilities (`loops.py`).

We shallowly embed the mesh model used by the code: a mesh is a vertex count,
a list of edges (pairs of vertex indices, the list position being the edge
index) and a list of faces, each face given by the list of edge indices it
contains — exactly the incidence information the code reads through
`link_edges` / `link_faces` / `other_vert`.  Adjacency lists are traversed
in ascending index order (the host's traversal order is one fixed order;
the spec itself notes that only the traversal order, not the set of
results, depends on it).  Unbounded `while` loops are given fuel and return
`Option`; `none` means the fuel ran out.
-/

structure Mesh where
  nverts : Nat
  edges : List (Nat × Nat)
  faces : List (List Nat)
deriving DecidableEq, Repr

/-- Endpoints of edge `e` (`BMEdge.verts`). -/
def edgeData (bm : Mesh) (e : Nat) : Nat × Nat := bm.edges.getD e (0, 0)

/-- `BMEdge.other_vert`: the endpoint of `e` other than `v`. -/
def otherVert (bm : Mesh) (e v : Nat) : Nat :=
  let p := edgeData bm e
  if v = p.1 then p.2 else p.1

/-- `BMVert.link_edges`: indices of edges incident to `v`, in index order. -/
def linkEdges (bm : Mesh) (v : Nat) : List Nat :=
  (List.range bm.edges.length).filter fun e =>
    decide ((edgeData bm e).1 = v) || decide ((edgeData bm e).2 = v)

/-- `BMEdge.link_faces`: indices of faces containing edge `e`. -/
def linkFaces (bm : Mesh) (e : Nat) : List Nat :=
  (List.range bm.faces.length).filter fun f => decide (e ∈ bm.faces.getD f [])

/-- `any(face in next.link_faces for face in last.link_faces)`. -/
def sharedFace (bm : Mesh) (lastE nextE : Nat) : Bool :=
  (linkFaces bm lastE).any fun f => decide (f ∈ linkFaces bm nextE)

/-- `BMVert.is_boundary`: some incident edge lies in exactly one face. -/
def vertIsBoundary (bm : Mesh) (v : Nat) : Bool :=
  (linkEdges bm v).any fun e => decide ((linkFaces bm e).length = 1)

/-- `BMVert.is_wire`: no incident edge lies in any face. -/
def vertIsWire (bm : Mesh) (v : Nat) : Bool :=
  (linkEdges bm v).all fun e => decide (linkFaces bm e = [])

/-- `is_pole`: adjusted incident-edge count differs from 4 (loops.py:20). -/
def isPole (bm : Mesh) (v : Nat) : Bool :=
  decide ((linkEdges bm v).length + (if vertIsBoundary bm v then 1 else 0)
    + (if vertIsWire bm v then 1 else 0) ≠ 4)

/-- `PureEdgeLoop` (loops.py:24): vertex sequence, edge sequence, edge set. -/
structure PureEdgeLoop where
  vertices : List Nat
  edges : List Nat
  edge_set : Finset Nat
deriving DecidableEq

/-- `PureEdgeLoop.is_closed`: first vertex equals last vertex (loops.py:38). -/
def PureEdgeLoop.isClosed (l : PureEdgeLoop) : Bool :=
  match l.vertices with
  | [] => false
  | v :: vs => decide ((v :: vs).getLastD 0 = v)

/-- `PureEdgeLoop.reverse` (loops.py:42). -/
def PureEdgeLoop.rev (l : PureEdgeLoop) : PureEdgeLoop :=
  ⟨l.vertices.reverse, l.edges.reverse, l.edge_set⟩

/-- `PureEdgeLoop.__eq__` (loops.py:46): equality of the edge sets. -/
def peqEq (a b : PureEdgeLoop) : Bool := decide (a.edge_set = b.edge_set)

/-- Why `find_loop`'s walk stopped: the head was a pole or a stop-set vertex;
the chosen next edge was the original starting edge; or no next edge
qualified (the non-manifold dead end of loops.py:76-79). -/
inductive StopReason where
  | poleOrStop
  | origEdge
  | deadEnd
deriving DecidableEq, Repr

/-- The `while True` body of `find_loop` (loops.py:65-79), with fuel.
State: the last traversed edge, the current head vertex, and the vertex and
edge accumulators.  (The python `tail` variable is tracked but never read,
so it is omitted.)  The stop reason is recorded so that theorems can speak
about which exit was taken. -/
def findLoopAux (bm : Mesh) (edge : Nat) (stop : Finset Nat) :
    Nat → Nat → Nat → List Nat → List Nat → Option (PureEdgeLoop × StopReason)
  | 0, _, _, _, _ => none
  | fuel + 1, lastEdge, head, vs, es =>
    if isPole bm head || decide (head ∈ stop) then
      some (⟨vs, es, es.toFinset⟩, .poleOrStop)
    else
      match (linkEdges bm head).find? (fun ne => !sharedFace bm lastEdge ne) with
      | none => some (⟨vs, es, es.toFinset⟩, .deadEnd)
      | some ne =>
        if ne = edge then some (⟨vs, es, es.toFinset⟩, .origEdge)
        else
          findLoopAux bm edge stop fuel ne (otherVert bm ne head)
            (vs ++ [otherVert bm ne head]) (es ++ [ne])

/-- `find_loop` (loops.py:56) with the stop reason. -/
def findLoopR (bm : Mesh) (edge start : Nat) (stop : Finset Nat) (fuel : Nat) :
    Option (PureEdgeLoop × StopReason) :=
  findLoopAux bm edge stop fuel edge (otherVert bm edge start)
    [start, otherVert bm edge start] [edge]

/-- `find_loop` (loops.py:56). -/
def findLoop (bm : Mesh) (edge start : Nat) (stop : Finset Nat) (fuel : Nat) :
    Option PureEdgeLoop :=
  (findLoopR bm edge start stop fuel).map Prod.fst

/-- One phase of `pure_edge_loops`: run `find_loop` from each seed
`(edge, start vertex)` whose edge is not yet visited, accumulating loops and
the visited edge set (loops.py:88-101). -/
def loopsFromSeeds (bm : Mesh) (fuel : Nat) :
    List (Nat × Nat) → List PureEdgeLoop → Finset Nat →
    Option (List PureEdgeLoop × Finset Nat)
  | [], acc, visited => some (acc, visited)
  | (e, v) :: rest, acc, visited =>
    if e ∈ visited then loopsFromSeeds bm fuel rest acc visited
    else
      match findLoop bm e v ∅ fuel with
      | none => none
      | some l => loopsFromSeeds bm fuel rest (acc ++ [l]) (visited ∪ l.edge_set)

/-- `pure_edge_loops` (loops.py:81): pole-anchored loops first, then a sweep
of the remaining edges in index order. -/
def pureEdgeLoops (bm : Mesh) (fuel : Nat) : Option (List PureEdgeLoop) :=
  let poleSeeds :=
    (((List.range bm.nverts).filter fun v => isPole bm v).flatMap
      fun p => (linkEdges bm p).map fun e => (e, p))
  let edgeSeeds := (List.range bm.edges.length).map fun e => (e, (edgeData bm e).1)
  (loopsFromSeeds bm fuel (poleSeeds ++ edgeSeeds) [] ∅).map Prod.fst

/-- `pure_edge_loop` (loops.py:104): walk one way, then from the far end, and
reverse if the queried edge came out last. -/
def pureEdgeLoop (bm : Mesh) (edge : Nat) (fuel : Nat) : Option PureEdgeLoop :=
  match findLoop bm edge (edgeData bm edge).1 ∅ fuel with
  | none => none
  | some part =>
    if part.vertices.headD 0 = part.vertices.getLastD 0 then some part
    else
      match findLoop bm (part.edges.getLastD 0) (part.vertices.getLastD 0) ∅ fuel with
      | none => none
      | some result =>
        if result.edges.getLastD 0 = edge then
          some ⟨result.vertices.reverse, result.edges.reverse, result.edges.toFinset⟩
        else some result

/-- `LoopSearchNode` (loops.py:391): ordered by `(length, end_vertex)`; the
segment list is excluded from comparison. -/
structure LoopSearchNode where
  length : Nat
  end_vertex : Nat
  loops : List PureEdgeLoop
deriving DecidableEq

/-- The dataclass ordering on `LoopSearchNode`: strict lexicographic
comparison of `(length, end_vertex)`. -/
def nodeLtb (a b : LoopSearchNode) : Bool :=
  decide (a.length < b.length) ||
    (decide (a.length = b.length) && decide (a.end_vertex < b.end_vertex))

/-- `nodeLtb` as a proposition. -/
def nodeLt (a b : LoopSearchNode) : Prop :=
  a.length < b.length ∨ (a.length = b.length ∧ a.end_vertex < b.end_vertex)

theorem nodeLtb_iff {a b : LoopSearchNode} : nodeLtb a b = true ↔ nodeLt a b := by
  simp [nodeLtb, nodeLt]

/-- The non-strict companion of `nodeLt`. -/
def nodeLe (a b : LoopSearchNode) : Prop :=
  a.length < b.length ∨ (a.length = b.length ∧ a.end_vertex ≤ b.end_vertex)

/-- `heappush` modelled on a sorted list: insert before the first strictly
greater element, i.e. after all elements with an equal key. -/
def qInsert (n : LoopSearchNode) : List LoopSearchNode → List LoopSearchNode
  | [] => [n]
  | m :: rest => if nodeLtb n m then n :: m :: rest else m :: qInsert n rest

/-- `MAX_EDGE_LOOPS` (loops.py:401). -/
def MAX_EDGE_LOOPS : Nat := 10

/-- Union of the edge sets of a chain of loop segments. -/
def unionEdges (ls : List PureEdgeLoop) : Finset Nat :=
  ls.foldr (fun l acc => l.edge_set ∪ acc) ∅

/-- `sum(len(loop.edges) for loop in seq)` (loops.py:443). -/
def totalLen (ls : List PureEdgeLoop) : Nat :=
  ls.foldr (fun l acc => l.edges.length + acc) 0

/-- The expansion loop of `get_edge_loops` (loops.py:433-444): for each edge
at the popped node's end vertex that is not already used by a segment of its
chain, walk a new segment and push the extended chain. -/
def pushSeeds (bm : Mesh) (flFuel : Nat) (stop : Finset Nat) (cand : LoopSearchNode) :
    List Nat → List LoopSearchNode → Option (List LoopSearchNode)
  | [], q => some q
  | le :: rest, q =>
    if cand.loops.any fun l => decide (le ∈ l.edge_set) then
      pushSeeds bm flFuel stop cand rest q
    else
      match findLoop bm le cand.end_vertex stop flFuel with
      | none => none
      | some nl =>
        pushSeeds bm flFuel stop cand rest
          (qInsert ⟨totalLen (cand.loops ++ [nl]), nl.vertices.getLastD 0,
            cand.loops ++ [nl]⟩ q)

/-- The `while queue` loop of `get_edge_loops` (loops.py:419-444), with fuel.
Next to each recorded edge set we keep the node length at which it was
appended (for the first entry, the open pure loop's edge count), so that the
order in which the search emits results can be stated. -/
def gelAux (bm : Mesh) (flFuel v0 : Nat) (stop : Finset Nat) :
    Nat → List LoopSearchNode → Finset Nat → List (Finset Nat × Nat) →
    Option (List (Finset Nat × Nat))
  | 0, _, _, _ => none
  | _ + 1, [], _, acc => some acc
  | fuel + 1, cand :: q, visited, acc =>
    if acc.length > MAX_EDGE_LOOPS then some acc
    else if cand.end_vertex = v0 then
      gelAux bm flFuel v0 stop fuel q visited
        (acc ++ [(unionEdges cand.loops, cand.length)])
    else if cand.end_vertex ∈ visited then gelAux bm flFuel v0 stop fuel q visited acc
    else
      match pushSeeds bm flFuel stop cand (linkEdges bm cand.end_vertex) q with
      | none => none
      | some q2 => gelAux bm flFuel v0 stop fuel q2 (insert cand.end_vertex visited) acc

/-- `get_edge_loops` (loops.py:403), annotated with the append lengths. -/
def getEdgeLoopsAnn (bm : Mesh) (edge fuel : Nat) : Option (List (Finset Nat × Nat)) :=
  match pureEdgeLoop bm edge fuel with
  | none => none
  | some pl =>
    if pl.isClosed then some [(pl.edge_set, pl.edges.length)]
    else
      gelAux bm fuel (pl.vertices.headD 0) {pl.vertices.headD 0} fuel
        [⟨pl.edges.length, pl.vertices.getLastD 0, [pl]⟩] ∅
        [(pl.edge_set, pl.edges.length)]

/-- `get_edge_loops` (loops.py:403): the list of edge-id sets. -/
def getEdgeLoops (bm : Mesh) (edge fuel : Nat) : Option (List (Finset Nat)) :=
  (getEdgeLoopsAnn bm edge fuel).map (List.map Prod.fst)

/-! ## Shortest path (`find_shortest_path`, loops.py:219) -/

/-- The adjacency lists built at loops.py:223-228: for each non-excluded
edge, each endpoint gets the other endpoint appended. -/
def nbrs (bm : Mesh) (ex : Finset Nat) (v : Nat) : List Nat :=
  ((List.range bm.edges.length).filter fun e => decide (e ∉ ex)).flatMap fun e =>
    (if (edgeData bm e).1 = v then [(edgeData bm e).2] else []) ++
      (if (edgeData bm e).2 = v then [(edgeData bm e).1] else [])

/-- `BMVert.link_faces`: faces containing some edge incident to `v`. -/
def vertLinkFaces (bm : Mesh) (v : Nat) : List Nat :=
  (List.range bm.faces.length).filter fun f =>
    (bm.faces.getD f []).any fun e =>
      decide ((edgeData bm e).1 = v) || decide ((edgeData bm e).2 = v)

/-- `any(face in bm.verts[w].link_faces for face in bm.verts[u].link_faces)`. -/
def sharedVertFace (bm : Mesh) (u w : Nat) : Bool :=
  (vertLinkFaces bm u).any fun f => decide (f ∈ vertLinkFaces bm w)

/-- Membership test for the `non_sharing` set (loops.py:242-246). -/
def nonSharingCond (bm : Mesh) (path : List Nat) (w : Nat) : Bool :=
  !path.isEmpty && !sharedVertFace bm (path.getLastD 0) w

/-- The queue entries pushed when expanding `v` with path `path`
(loops.py:247-250): the non-face-sharing neighbours first (as a set, hence
deduplicated), then the remaining neighbours in adjacency order. -/
def spPushes (bm : Mesh) (ex : Finset Nat) (v : Nat) (path : List Nat) :
    List (Nat × List Nat) :=
  let ns := ((nbrs bm ex v).filter fun w => nonSharingCond bm path w).dedup
  (ns ++ (nbrs bm ex v).filter fun w => decide (w ∉ ns)).map fun w => (w, path ++ [v])

/-- The BFS loop of `find_shortest_path` (loops.py:233-251), with fuel.
`some (some p)` is a found path, `some none` means the queue emptied,
`none` means the fuel ran out. -/
def spAux (bm : Mesh) (ex : Finset Nat) (e : Nat) :
    Nat → List (Nat × List Nat) → Finset Nat → Option (Option (List Nat))
  | 0, _, _ => none
  | _ + 1, [], _ => some none
  | fuel + 1, (v, path) :: rest, searched =>
    if v ∈ searched then spAux bm ex e fuel rest searched
    else if v = e then some (some (path ++ [v]))
    else spAux bm ex e fuel (rest ++ spPushes bm ex v path) (insert v searched)

/-- Vertices that can ever enter the BFS queue: the start and all edge
endpoints. -/
def spUniv (bm : Mesh) (s : Nat) : Finset Nat :=
  insert s (bm.edges.foldr (fun p acc => insert p.1 (insert p.2 acc)) ∅)

/-- A fuel bound large enough that `spAux` always finishes (proved below). -/
def spFuel (bm : Mesh) (s : Nat) : Nat :=
  ((spUniv bm s).card + 1) * (4 * bm.edges.length + 2) + 2

/-- `find_shortest_path` (loops.py:219). -/
def findShortestPath (bm : Mesh) (s e : Nat) (ex : Finset Nat) : Option (List Nat) :=
  match spAux bm ex e (spFuel bm s) [(s, [])] ∅ with
  | some r => r
  | none => none

/-! ## Concrete meshes used as test inputs and counterexamples.

All of them are legitimate non-manifold meshes: `meshW` and `meshNT` are
pure wire meshes (edges without faces), and `meshB2`/`meshB3` additionally
carry faces, given — as everywhere in this development — by the edge
incidence lists the code consumes. -/

/-- A wire 3-star: centre vertex 0 joined to vertices 1, 2, 3.  The centre
has degree 3 and is wire, so it is not a pole; the leaves are poles. -/
def meshW : Mesh := ⟨4, [(0, 1), (0, 2), (0, 3)], []⟩

/-- A wire triangle 1-2-3 with pendant edges 0-1, 2-4, 3-5, so that the
triangle vertices all have wire degree 3 and are not poles.  Walking from
vertex 0 across edge 3 enters the triangle and ping-pongs along edge 0
forever. -/
def meshNT : Mesh := ⟨6, [(1, 2), (2, 3), (3, 1), (0, 1), (2, 4), (3, 5)], []⟩

/-- Mesh refuting the sortedness-by-cardinality of `get_edge_loops`:
the open pure loop 0-1-2-3 (edges 2, 0, 1) plus a fresh two-edge closure
3-4-0 (edges 4, 5) and a shortcut edge 3 from vertex 3 to vertex 2 whose
walk re-traverses the pure loop's own edges back to vertex 0. -/
def meshB2 : Mesh :=
  ⟨7, [(1, 2), (2, 3), (0, 1), (3, 2), (3, 4), (4, 0), (4, 5), (1, 6)],
   [[1, 4], [1, 3], [0, 7]]⟩

/-- Mesh refuting the no-duplicates guarantee of `get_edge_loops`: the open
pure loop 0-1-2 (edges 4, 0), a fresh closure through vertex 4 (edges 1, 5),
and a doubled edge pair 2, 3 between vertices 2 and 3 that two expansion
walks traverse in opposite orders before continuing along the same tail,
yielding two closures with identical edge sets. -/
def meshB3 : Mesh :=
  ⟨8, [(1, 2), (2, 4), (2, 3), (2, 3), (0, 1), (4, 0), (3, 5), (1, 7), (4, 6)],
   [[0, 2], [0, 3], [0, 1], [2, 8], [3, 7], [1, 6]]⟩

/-! ## Selection state (`SavedSelectionState`, loops.py:172) -/

/-- The kind of the active element (`BMVert` / `BMEdge` / `BMFace`). -/
inductive ElemKind where
  | vert
  | edge
  | face
deriving DecidableEq

/-- The live editor selection state: the select-mode flags
(`tool_settings.mesh_select_mode`), one selection flag per vertex, edge and
face, and the active element of the selection history (`none` when there is
no active element). -/
structure BState where
  mode : Bool × Bool × Bool
  vsel : List Bool
  esel : List Bool
  fsel : List Bool
  active : Option (ElemKind × Nat)
deriving DecidableEq

/-- `SavedSelectionState` (loops.py:172): mode flags, the three selected-id
sets, the type of the active element (`none` embeds python's `NoneType`) and
its index, `-1` when there was no active element. -/
structure SavedSelectionState where
  mode : Bool × Bool × Bool
  selected_verts : Finset Nat
  selected_edges : Finset Nat
  selected_faces : Finset Nat
  active_type : Option ElemKind
  active : Int
deriving DecidableEq

/-- Indices of `true` entries of a selection-flag list. -/
def selIdx (l : List Bool) : Finset Nat :=
  ((List.range l.length).filter fun i => l.getD i false).toFinset

/-- `SavedSelectionState.from_context` (loops.py:183). -/
def fromContext (st : BState) : SavedSelectionState :=
  ⟨st.mode, selIdx st.vsel, selIdx st.esel, selIdx st.fsel,
   st.active.map Prod.fst,
   match st.active with
   | some (_, i) => (i : Int)
   | none => -1⟩

/-- Python list indexing with negative wrap-around: `some` of the effective
natural index when in range, `none` for an `IndexError`. -/
def pyIndex (n : Nat) (i : Int) : Option Nat :=
  if 0 ≤ i ∧ i < (n : Int) then some i.toNat
  else if -(n : Int) ≤ i ∧ i < 0 then some ((n : Int) + i).toNat
  else none

/-- Edge `e` seen as selected: both endpoint vertices selected. -/
def edgeFromVerts (bm : Mesh) (vsel : List Bool) (e : Nat) : Bool :=
  vsel.getD (edgeData bm e).1 false && vsel.getD (edgeData bm e).2 false

/-- Modelled from the spec: the host's selection-propagation primitive
`select_flush_mode` (called at loops.py:213), an external collaborator of
§4.1/§4.6 that is not part of this repository.  Per the spec, restoring
writes the selection of "exactly the element kind matching the active mode"
and "cascading/derived selection on other element kinds is left to the
external mesh's own selection-propagation step": the flush recomputes the
two non-matching kinds from the matching one and leaves the matching kind,
the mode flags and the active element untouched. -/
def flushMode (bm : Mesh) (st : BState) : BState :=
  if st.mode.1 then
    { st with
      esel := (List.range st.esel.length).map fun e => edgeFromVerts bm st.vsel e
      fsel := (List.range st.fsel.length).map fun f =>
        (bm.faces.getD f []).all fun e => edgeFromVerts bm st.vsel e }
  else if st.mode.2.1 then
    { st with
      vsel := (List.range st.vsel.length).map fun v =>
        (linkEdges bm v).any fun e => st.esel.getD e false
      fsel := (List.range st.fsel.length).map fun f =>
        (bm.faces.getD f []).all fun e => st.esel.getD e false }
  else
    { st with
      vsel := (List.range st.vsel.length).map fun v =>
        (linkEdges bm v).any fun e =>
          (linkFaces bm e).any fun f => st.fsel.getD f false
      esel := (List.range st.esel.length).map fun e =>
        (linkFaces bm e).any fun f => st.fsel.getD f false }

/-- `SavedSelectionState.restore` (loops.py:194): write the mode flags, then
the selection of the kind matched by the mode branch, flush, and re-resolve
the active element; indexing a stale id (or indexing the empty fallback
obtained for an unknown active type) raises, which the embedding reports as
`Except.error`. -/
def restore (bm : Mesh) (sv : SavedSelectionState) (st : BState) : Except Unit BState :=
  let st1 : BState := { st with mode := sv.mode }
  let vs := (List.range st1.vsel.length).map fun i => decide (i ∈ sv.selected_verts)
  let es := (List.range st1.esel.length).map fun i => decide (i ∈ sv.selected_edges)
  let fs := (List.range st1.fsel.length).map fun i => decide (i ∈ sv.selected_faces)
  let st2 : BState :=
    if sv.mode.1 then { st1 with vsel := vs }
    else if sv.mode.2.1 then { st1 with esel := es }
    else { st1 with fsel := fs }
  let st3 := flushMode bm st2
  if sv.active = -1 then Except.ok st3
  else
    let cnt : Nat :=
      match sv.active_type with
      | some .vert => st3.vsel.length
      | some .edge => st3.esel.length
      | some .face => st3.fsel.length
      | none => 0
    match pyIndex cnt sv.active, sv.active_type with
    | some i, some k => Except.ok { st3 with active := some (k, i) }
    | _, _ => Except.error ()

/-- The selection list of the kind matching the mode branch taken by
`restore` (vertex if the vertex flag is set, else edge if the edge flag is
set, else face). -/
def modeSel (st : BState) : List Bool :=
  if st.mode.1 then st.vsel else if st.mode.2.1 then st.esel else st.fsel

/-- Exactly one of the three selection-mode flags. -/
def singleMode (m : Bool × Bool × Bool) : Prop :=
  m = (true, false, false) ∨ m = (false, true, false) ∨ m = (false, false, true)

/-- The number of elements of kind `k` in the state. -/
def kindCount (st : BState) : ElemKind → Nat
  | .vert => st.vsel.length
  | .edge => st.esel.length
  | .face => st.fsel.length

/-- The active element, if any, refers to an existing element. -/
def activeOk (st : BState) : Prop :=
  match st.active with
  | none => True
  | some (k, i) => i < kindCount st k

/-! ## Lemmas about `find_loop` -/

theorem findLoopAux_edges_sub (bm : Mesh) (edge : Nat) (stop : Finset Nat) :
    ∀ fuel lastE head vs es l r,
      findLoopAux bm edge stop fuel lastE head vs es = some (l, r) →
      es ⊆ l.edges ∧ l.edge_set = l.edges.toFinset := by
  intro fuel
  induction fuel with
  | zero => intro _ _ _ _ _ _ h; exact absurd h (by simp [findLoopAux])
  | succ n ih =>
    intro lastE head vs es l r h
    rw [findLoopAux] at h
    split at h
    · obtain ⟨rfl, rfl⟩ : l = ⟨vs, es, es.toFinset⟩ ∧ r = .poleOrStop := by
        simpa [eq_comm] using h
      exact ⟨List.Subset.refl es, rfl⟩
    · split at h
      · obtain ⟨rfl, rfl⟩ : l = ⟨vs, es, es.toFinset⟩ ∧ r = .deadEnd := by
          simpa [eq_comm] using h
        exact ⟨List.Subset.refl es, rfl⟩
      · split at h
        · obtain ⟨rfl, rfl⟩ : l = ⟨vs, es, es.toFinset⟩ ∧ r = .origEdge := by
            simpa [eq_comm] using h
          exact ⟨List.Subset.refl es, rfl⟩
        · obtain ⟨h1, h2⟩ := ih _ _ _ _ _ _ h
          exact ⟨(List.subset_append_left es _).trans h1, h2⟩

theorem findLoopAux_vertices_head (bm : Mesh) (edge : Nat) (stop : Finset Nat) :
    ∀ fuel lastE head vs es l r, vs ≠ [] →
      findLoopAux bm edge stop fuel lastE head vs es = some (l, r) →
      l.vertices.head? = vs.head? ∧ l.vertices ≠ [] := by
  intro fuel
  induction fuel with
  | zero => intro _ _ _ _ _ _ _ h; exact absurd h (by simp [findLoopAux])
  | succ n ih =>
    intro lastE head vs es l r hvs h
    rw [findLoopAux] at h
    split at h
    · obtain ⟨rfl, rfl⟩ : l = ⟨vs, es, es.toFinset⟩ ∧ r = .poleOrStop := by
        simpa [eq_comm] using h
      exact ⟨rfl, hvs⟩
    · split at h
      · obtain ⟨rfl, rfl⟩ : l = ⟨vs, es, es.toFinset⟩ ∧ r = .deadEnd := by
          simpa [eq_comm] using h
        exact ⟨rfl, hvs⟩
      · split at h
        · obtain ⟨rfl, rfl⟩ : l = ⟨vs, es, es.toFinset⟩ ∧ r = .origEdge := by
            simpa [eq_comm] using h
          exact ⟨rfl, hvs⟩
        · obtain ⟨h1, h2⟩ := ih _ _ _ _ _ _ (by simp) h
          refine ⟨h1.trans ?_, h2⟩
          obtain ⟨a, t, rfl⟩ := List.exists_cons_of_ne_nil hvs
          simp

theorem findLoop_seed_mem (bm : Mesh) (e v : Nat) (stop : Finset Nat) (fuel : Nat)
    (l : PureEdgeLoop) (h : findLoop bm e v stop fuel = some l) :
    e ∈ l.edge_set := by
  rw [findLoop, Option.map_eq_some'] at h
  obtain ⟨⟨l', r⟩, hr, hl⟩ := h
  obtain ⟨h1, h2⟩ := findLoopAux_edges_sub bm e stop fuel _ _ _ _ _ _ hr
  subst hl
  rw [h2]
  exact List.mem_toFinset.mpr (h1 (by simp))

/-! ## C10: `find_loop` need not terminate (meshNT) -/

theorem meshNT_step_at_1 (n : Nat) (vs es : List Nat) :
    findLoopAux meshNT 3 ∅ (n + 1) 0 1 vs es =
      findLoopAux meshNT 3 ∅ n 0 2 (vs ++ [2]) (es ++ [0]) := rfl

theorem meshNT_step_at_2 (n : Nat) (vs es : List Nat) :
    findLoopAux meshNT 3 ∅ (n + 1) 0 2 vs es =
      findLoopAux meshNT 3 ∅ n 0 1 (vs ++ [1]) (es ++ [0]) := rfl

theorem meshNT_pingpong : ∀ fuel vs es,
    findLoopAux meshNT 3 ∅ fuel 0 1 vs es = none ∧
      findLoopAux meshNT 3 ∅ fuel 0 2 vs es = none := by
  intro fuel
  induction fuel with
  | zero => intro vs es; exact ⟨rfl, rfl⟩
  | succ n ih =>
    intro vs es
    rw [meshNT_step_at_1, meshNT_step_at_2]
    exact ⟨(ih _ _).2, (ih _ _).1⟩

/-- C10: the claim that `find_loop` terminates on every finite mesh, every
starting edge, start vertex and stop set is wrong: on the wire mesh `meshNT`
the walk started from vertex 0 across edge 3 enters the triangle and then
ping-pongs across edge 0 between vertices 1 and 2 forever (neither is a
pole, no face constraint ever disqualifies an edge, and the chosen next edge
is never the original edge 3), so the embedded walk exhausts every fuel
bound.  In python this is an infinite `while True` loop. -/
theorem find_loop_diverges_on_meshNT : ∀ fuel, findLoop meshNT 3 0 ∅ fuel = none := by
  intro fuel
  cases fuel with
  | zero => rfl
  | succ n =>
    have h : findLoopR meshNT 3 0 ∅ (n + 1) =
        findLoopAux meshNT 3 ∅ n 0 2 [0, 1, 2] [3, 0] := rfl
    rw [findLoop, h, (meshNT_pingpong n [0, 1, 2] [3, 0]).2, Option.map_none']

/-! ## C7: stopping on the original edge -/

/-- C7 counterexample: on the wire 3-star `meshW`, the walk from vertex 1
across edge 0 immediately selects the original starting edge again as the
next edge (the centre vertex 0 is not a pole and no face disqualifies any
edge), so it stops with reason `origEdge` — but its vertex sequence is
`[1, 0]`, whose first and last vertices differ, so the result is not
closed. -/
theorem c7_counterexample :
    findLoopR meshW 0 1 ∅ 9 = some (⟨[1, 0], [0], {0}⟩, .origEdge) ∧
      PureEdgeLoop.isClosed ⟨[1, 0], [0], {0}⟩ = false := by
  constructor <;> decide

/-- C7 amended: when `find_loop`'s walk selects the original starting edge
it stops with the chain built so far; the first vertex of the result is the
walk's start vertex, and the result is closed precisely when the head at
which the walk stopped — the last vertex of the chain — is that start
vertex. -/
theorem c7_amended (bm : Mesh) (edge start : Nat) (stop : Finset Nat) (fuel : Nat)
    (l : PureEdgeLoop) (h : findLoopR bm edge start stop fuel = some (l, .origEdge)) :
    l.vertices.headD 0 = start ∧
      (l.isClosed = true ↔ l.vertices.getLastD 0 = start) := by
  obtain ⟨h1, h2⟩ := findLoopAux_vertices_head bm edge stop fuel _ _ _ _ _ _
    (by simp) h
  obtain ⟨a, t, hv⟩ := List.exists_cons_of_ne_nil h2
  have ha : a = start := by
    rw [hv] at h1
    simpa [eq_comm] using h1.symm
  subst ha
  constructor
  · simp [hv]
  · rw [PureEdgeLoop.isClosed, hv]
    simp [hv]

/-- Witness for `c7_amended` at the concrete input of the counterexample. -/
theorem c7_amended_witness :
    ([1, 0] : List Nat).headD 0 = 1 ∧
      (PureEdgeLoop.isClosed ⟨[1, 0], [0], {0}⟩ = true ↔
        ([1, 0] : List Nat).getLastD 0 = 1) :=
  c7_amended meshW 0 1 ∅ 9 ⟨[1, 0], [0], {0}⟩ (by decide)

/-! ## C8: loop equality and direction -/

/-- C8 counterexample: on `meshW`, `find_loop(edge 1, vertex 2)` yields the
open chain `2-0-1` with edge set `{1, 0}`; walking back from its far end
(vertex 1) across its final edge (edge 0) — exactly the opposite-end walk
`pure_edge_loop` performs — stops immediately on the original-edge check
with edge set `{0}`.  The two edge sets differ, so the two walks are not
equal as `PureEdgeLoop`s. -/
theorem c8_counterexample :
    findLoop meshW 1 2 ∅ 9 = some ⟨[2, 0, 1], [1, 0], {1, 0}⟩ ∧
      PureEdgeLoop.isClosed ⟨[2, 0, 1], [1, 0], {1, 0}⟩ = false ∧
      findLoop meshW 0 1 ∅ 9 = some ⟨[1, 0], [0], {0}⟩ ∧
      peqEq ⟨[2, 0, 1], [1, 0], {1, 0}⟩ ⟨[1, 0], [0], {0}⟩ = false := by
  refine ⟨by decide, by decide, by decide, by decide⟩

/-- C8 amended: `PureEdgeLoop` equality holds exactly when the edge sets are
equal, and a loop's reverse keeps the edge set and is therefore equal to the
loop; but walks from opposite ends of the same open chain need not yield
equal edge sets (see the counterexample). -/
theorem c8_amended : ∀ a b : PureEdgeLoop,
    (peqEq a b = true ↔ a.edge_set = b.edge_set) ∧
      a.rev.edge_set = a.edge_set ∧ peqEq a a.rev = true := by
  intro a b
  refine ⟨?_, rfl, ?_⟩
  · simp [peqEq]
  · simp [peqEq, PureEdgeLoop.rev]

/-! ## C1: `pure_edge_loops` covers but does not partition -/

/-- C1 counterexample: on the wire 3-star `meshW` (three edges), edge 0 lies
in the edge set of all three returned loops, so the returned list does not
partition the edge set. -/
theorem c1_counterexample :
    pureEdgeLoops meshW 9 =
      some [⟨[1, 0], [0], {0}⟩, ⟨[2, 0, 1], [1, 0], {1, 0}⟩,
        ⟨[3, 0, 1], [2, 0], {2, 0}⟩] ∧
      ((pureEdgeLoops meshW 9).getD []).countP
        (fun l => decide (0 ∈ l.edge_set)) = 3 ∧
      meshW.edges.length = 3 := by
  refine ⟨by decide, by decide, by decide⟩

theorem loopsFromSeeds_vis_mono (bm : Mesh) (fuel : Nat) :
    ∀ seeds acc vis acc2 vis2,
      loopsFromSeeds bm fuel seeds acc vis = some (acc2, vis2) → vis ⊆ vis2 := by
  intro seeds
  induction seeds with
  | nil =>
    intro acc vis acc2 vis2 h
    obtain ⟨rfl, rfl⟩ : acc = acc2 ∧ vis = vis2 := by
      simpa [loopsFromSeeds, eq_comm] using h
    exact Finset.Subset.refl _
  | cons s rest ih =>
    intro acc vis acc2 vis2 h
    obtain ⟨e, v⟩ := s
    rw [loopsFromSeeds] at h
    split at h
    · exact ih _ _ _ _ h
    · split at h
      · exact absurd h (by simp)
      · exact Finset.subset_union_left.trans (ih _ _ _ _ h)

theorem loopsFromSeeds_seeds_visited (bm : Mesh) (fuel : Nat) :
    ∀ seeds acc vis acc2 vis2,
      loopsFromSeeds bm fuel seeds acc vis = some (acc2, vis2) →
      ∀ p ∈ seeds, p.1 ∈ vis2 := by
  intro seeds
  induction seeds with
  | nil => intro _ _ _ _ _ p hp; exact absurd hp (by simp)
  | cons s rest ih =>
    intro acc vis acc2 vis2 h p hp
    obtain ⟨e, v⟩ := s
    rw [loopsFromSeeds] at h
    rcases List.mem_cons.mp hp with rfl | hp
    · split at h
      · exact loopsFromSeeds_vis_mono bm fuel _ _ _ _ _ h (by assumption)
      · split at h
        · exact absurd h (by simp)
        · refine loopsFromSeeds_vis_mono bm fuel _ _ _ _ _ h ?_
          refine Finset.mem_union_right _ ?_
          exact findLoop_seed_mem bm e v ∅ fuel _ (by assumption)
    · split at h
      · exact ih _ _ _ _ h p hp
      · split at h
        · exact absurd h (by simp)
        · exact ih _ _ _ _ h p hp

theorem loopsFromSeeds_vis_covered (bm : Mesh) (fuel : Nat) :
    ∀ seeds acc vis acc2 vis2,
      loopsFromSeeds bm fuel seeds acc vis = some (acc2, vis2) →
      (∀ x ∈ vis, ∃ l ∈ acc, x ∈ l.edge_set) →
      ∀ x ∈ vis2, ∃ l ∈ acc2, x ∈ l.edge_set := by
  intro seeds
  induction seeds with
  | nil =>
    intro acc vis acc2 vis2 h hcov
    obtain ⟨rfl, rfl⟩ : acc = acc2 ∧ vis = vis2 := by
      simpa [loopsFromSeeds, eq_comm] using h
    exact hcov
  | cons s rest ih =>
    intro acc vis acc2 vis2 h hcov
    obtain ⟨e, v⟩ := s
    rw [loopsFromSeeds] at h
    split at h
    · exact ih _ _ _ _ h hcov
    · split at h
      · exact absurd h (by simp)
      · rename_i l hl
        refine ih _ _ _ _ h ?_
        intro x hx
        rcases Finset.mem_union.mp hx with hx | hx
        · obtain ⟨l2, hl2, hl2x⟩ := hcov x hx
          exact ⟨l2, by simp [hl2], hl2x⟩
        · exact ⟨l, by simp, hx⟩

/-- C1 amended: on every mesh on which the enumeration finishes, every edge
id of the mesh belongs to the edge set of at least one returned loop (the
final sweep walks a loop from every still-unvisited edge, and a walk always
contains its seed edge); but an edge may belong to several returned loops'
edge sets on non-manifold geometry, so the list is a cover, not a
partition. -/
theorem c1_amended (bm : Mesh) (fuel : Nat) (L : List PureEdgeLoop)
    (h : pureEdgeLoops bm fuel = some L) (e : Nat) (he : e < bm.edges.length) :
    ∃ l ∈ L, e ∈ l.edge_set := by
  rw [pureEdgeLoops, Option.map_eq_some'] at h
  obtain ⟨⟨acc2, vis2⟩, hr, hl⟩ := h
  have he2 : e ∈ vis2 := by
    refine loopsFromSeeds_seeds_visited bm fuel _ _ _ _ _ hr (e, (edgeData bm e).1) ?_
    refine List.mem_append_right _ ?_
    simpa using List.mem_map_of_mem (fun e => (e, (edgeData bm e).1))
      (List.mem_range.mpr he)
  have := loopsFromSeeds_vis_covered bm fuel _ _ _ _ _ hr (by simp) e he2
  simpa [← hl] using this

/-- Witness for `c1_amended`: on `meshW` with fuel 9, edge 0 is covered. -/
theorem c1_amended_witness :
    ∃ l ∈ [(⟨[1, 0], [0], {0}⟩ : PureEdgeLoop), ⟨[2, 0, 1], [1, 0], {1, 0}⟩,
      ⟨[3, 0, 1], [2, 0], {2, 0}⟩], 0 ∈ l.edge_set :=
  c1_amended meshW 9 _ (by decide) 0 (by decide)

/-! ## Lemmas about the loop-completion search -/

theorem nodeLe_trans {a b c : LoopSearchNode} (h1 : nodeLe a b) (h2 : nodeLe b c) :
    nodeLe a c := by
  rcases h1 with h1 | ⟨h1, h1e⟩ <;> rcases h2 with h2 | ⟨h2, h2e⟩ <;>
    simp only [nodeLe] <;> omega

theorem nodeLe_of_lt {a b : LoopSearchNode} (h : nodeLt a b) : nodeLe a b := by
  rcases h with h | ⟨h, he⟩ <;> simp only [nodeLe] <;> omega

theorem nodeLe_of_not_lt {a b : LoopSearchNode} (h : ¬ nodeLt a b) : nodeLe b a := by
  simp only [nodeLt, not_or, not_and, not_lt] at h
  rcases Nat.lt_or_ge b.length a.length with h2 | h2
  · exact Or.inl h2
  · have he : a.length = b.length := le_antisymm h2 h.1
    exact Or.inr ⟨he.symm, h.2 he⟩

theorem nodeLe_length {a b : LoopSearchNode} (h : nodeLe a b) :
    a.length ≤ b.length := by
  rcases h with h | ⟨h, _⟩ <;> omega

theorem mem_qInsert {x n : LoopSearchNode} :
    ∀ q, x ∈ qInsert n q ↔ x = n ∨ x ∈ q := by
  intro q
  induction q with
  | nil => simp [qInsert]
  | cons m rest ih =>
    rw [qInsert]
    split
    · simp [or_comm, or_left_comm]
    · simp only [List.mem_cons, ih]
      tauto

theorem qInsert_pairwise {n : LoopSearchNode} :
    ∀ q, q.Pairwise nodeLe → (qInsert n q).Pairwise nodeLe := by
  intro q
  induction q with
  | nil => intro _; simp [qInsert]
  | cons m rest ih =>
    intro h
    rw [qInsert]
    rw [List.pairwise_cons] at h
    split
    · rename_i hlt
      replace hlt := nodeLtb_iff.mp hlt
      refine List.Pairwise.cons ?_ (List.Pairwise.cons h.1 h.2)
      intro x hx
      rcases List.mem_cons.mp hx with rfl | hx
      · exact nodeLe_of_lt hlt
      · exact nodeLe_trans (nodeLe_of_lt hlt) (h.1 x hx)
    · rename_i hnlt
      replace hnlt := fun hc => hnlt (nodeLtb_iff.mpr hc)
      refine List.Pairwise.cons ?_ (ih h.2)
      intro x hx
      rcases (mem_qInsert rest).mp hx with rfl | hx
      · exact nodeLe_of_not_lt hnlt
      · exact h.1 x hx

theorem unionEdges_append (ls : List PureEdgeLoop) (l : PureEdgeLoop) :
    unionEdges (ls ++ [l]) = unionEdges ls ∪ l.edge_set := by
  induction ls with
  | nil => simp [unionEdges]
  | cons a t ih => simp only [unionEdges, List.cons_append, List.foldr_cons] at ih ⊢; rw [ih, Finset.union_assoc]

theorem totalLen_append (ls : List PureEdgeLoop) (l : PureEdgeLoop) :
    totalLen (ls ++ [l]) = totalLen ls + l.edges.length := by
  induction ls with
  | nil => simp [totalLen]
  | cons a t ih => simp [totalLen] at ih ⊢; omega

theorem mem_unionEdges {x : Nat} : ∀ ls : List PureEdgeLoop,
    x ∈ unionEdges ls ↔ ∃ l ∈ ls, x ∈ l.edge_set := by
  intro ls
  induction ls with
  | nil => simp [unionEdges]
  | cons a t ih =>
    have hc : unionEdges (a :: t) = a.edge_set ∪ unionEdges t := rfl
    rw [hc]
    simp [Finset.mem_union, ih]

theorem pushSeeds_pairwise (bm : Mesh) (flFuel : Nat) (stop : Finset Nat)
    (cand : LoopSearchNode) :
    ∀ les q q2, pushSeeds bm flFuel stop cand les q = some q2 →
      q.Pairwise nodeLe → q2.Pairwise nodeLe := by
  intro les
  induction les with
  | nil =>
    intro q q2 h hp
    obtain rfl : q = q2 := by simpa [pushSeeds, eq_comm] using h
    exact hp
  | cons le rest ih =>
    intro q q2 h hp
    rw [pushSeeds] at h
    split at h
    · exact ih _ _ h hp
    · split at h
      · exact absurd h (by simp)
      · exact ih _ _ h (qInsert_pairwise _ hp)

theorem pushSeeds_forall (bm : Mesh) (flFuel : Nat) (stop : Finset Nat)
    (cand : LoopSearchNode) (Pred : LoopSearchNode → Prop) :
    ∀ les q q2, pushSeeds bm flFuel stop cand les q = some q2 →
      (∀ n ∈ q, Pred n) →
      (∀ le nl, (cand.loops.any fun l => decide (le ∈ l.edge_set)) = false →
        findLoop bm le cand.end_vertex stop flFuel = some nl →
        Pred ⟨totalLen (cand.loops ++ [nl]), nl.vertices.getLastD 0,
          cand.loops ++ [nl]⟩) →
      ∀ n ∈ q2, Pred n := by
  intro les
  induction les with
  | nil =>
    intro q q2 h hq _
    obtain rfl : q = q2 := by simpa [pushSeeds, eq_comm] using h
    exact hq
  | cons le rest ih =>
    intro q q2 h hq hnew
    rw [pushSeeds] at h
    split at h
    · exact ih _ _ h hq hnew
    · rename_i hguard
      split at h
      · exact absurd h (by simp)
      · rename_i nl hnl
        refine ih _ _ h ?_ hnew
        intro n hn
        rcases (mem_qInsert _).mp hn with rfl | hn
        · exact hnew le nl (by simpa using hguard) hnl
        · exact hq n hn

/-- The queue/accumulator invariant of the loop-completion search: the queue
is sorted, every node's length is the total segment length of its chain,
every chain extends the open pure loop `pl` (and strictly, once it has a
second segment or ends at the start vertex `v0`), and every queued length
dominates the last recorded length. -/
def QInv (pl : PureEdgeLoop) (v0 : Nat) (q : List LoopSearchNode)
    (acc : List (Finset Nat × Nat)) : Prop :=
  q.Pairwise nodeLe ∧
  (∀ n ∈ q, n.length = totalLen n.loops) ∧
  (∀ n ∈ q, pl.edge_set ⊆ unionEdges n.loops) ∧
  (∀ n ∈ q, n.end_vertex = v0 → pl.edge_set ⊂ unionEdges n.loops) ∧
  (∀ n ∈ q, (acc.map Prod.snd).getLastD 0 ≤ n.length) ∧
  (acc.map Prod.snd).Chain' (· ≤ ·) ∧ acc ≠ []

theorem gelAux_master (bm : Mesh) (flFuel v0 : Nat) (stop : Finset Nat)
    (pl : PureEdgeLoop) :
    ∀ fuel q visited acc res,
      gelAux bm flFuel v0 stop fuel q visited acc = some res →
      QInv pl v0 q acc →
      (∃ suf, res = acc ++ suf ∧ ∀ p ∈ suf, pl.edge_set ⊂ p.1) ∧
      (res.map Prod.snd).Chain' (· ≤ ·) := by
  intro fuel
  induction fuel with
  | zero => intro q visited acc res h; exact absurd h (by simp [gelAux])
  | succ n ih =>
    intro q visited acc res h hinv
    obtain ⟨hpw, hlen, hsub, hstrict, hlast, hchain, hne⟩ := hinv
    match q with
    | [] =>
      obtain rfl : acc = res := by simpa [gelAux] using h
      exact ⟨⟨[], by simp, by simp⟩, hchain⟩
    | cand :: q =>
      rw [gelAux] at h
      split at h
      · obtain rfl : acc = res := by simpa [eq_comm] using h
        exact ⟨⟨[], by simp, by simp⟩, hchain⟩
      · split at h
        · rename_i hcl
          have hcand_len : (acc.map Prod.snd).getLastD 0 ≤ cand.length :=
            hlast cand (by simp)
          have hmin : ∀ m ∈ q, cand.length ≤ m.length := fun m hm =>
            nodeLe_length ((List.pairwise_cons.mp hpw).1 m hm)
          have hmap : ((acc ++ [(unionEdges cand.loops, cand.length)]).map
              Prod.snd) = acc.map Prod.snd ++ [cand.length] := by simp
          have hinv2 : QInv pl v0 q (acc ++ [(unionEdges cand.loops, cand.length)]) := by
            refine ⟨hpw.of_cons, fun m hm => hlen m (by simp [hm]),
              fun m hm => hsub m (by simp [hm]),
              fun m hm => hstrict m (by simp [hm]), ?_, ?_, by simp⟩
            · intro m hm
              rw [hmap, List.getLastD_concat]
              exact hmin m hm
            · rw [hmap, List.chain'_append]
              refine ⟨hchain, List.chain'_singleton _, ?_⟩
              intro x hx y hy
              have hy2 : y = cand.length := by simpa [eq_comm] using hy
              have hmapne : acc.map Prod.snd ≠ [] := by simpa using hne
              have hx2 : x = (acc.map Prod.snd).getLastD 0 := by
                rw [List.getLastD_eq_getLast?]
                rw [hx]
                rfl
              rw [hx2, hy2]
              exact hcand_len
          obtain ⟨⟨suf, rfl, hsuf⟩, hch⟩ := ih _ _ _ _ h hinv2
          refine ⟨⟨(unionEdges cand.loops, cand.length) :: suf, by simp, ?_⟩, hch⟩
          intro p hp
          rcases List.mem_cons.mp hp with rfl | hp
          · exact hstrict cand (by simp) hcl
          · exact hsuf p hp
        · split at h
          · refine ih _ _ _ _ h ⟨hpw.of_cons, fun m hm => hlen m (by simp [hm]),
              fun m hm => hsub m (by simp [hm]),
              fun m hm => hstrict m (by simp [hm]),
              fun m hm => hlast m (by simp [hm]), hchain, hne⟩
          · split at h
            · exact absurd h (by simp)
            · rename_i q2 hps
              have htail : ∀ m ∈ q, m ∈ cand :: q := fun m hm => by simp [hm]
              have hcand_sub : pl.edge_set ⊆ unionEdges cand.loops :=
                hsub cand (by simp)
              have hcand_len2 : cand.length = totalLen cand.loops :=
                hlen cand (by simp)
              have hcand_last : (acc.map Prod.snd).getLastD 0 ≤ cand.length :=
                hlast cand (by simp)
              refine ih _ _ _ _ h ⟨?_, ?_, ?_, ?_, ?_, hchain, hne⟩
              · exact pushSeeds_pairwise bm flFuel stop cand _ _ _ hps hpw.of_cons
              · refine pushSeeds_forall bm flFuel stop cand _ _ _ _ hps
                  (fun m hm => hlen m (htail m hm)) ?_
                intro le nl _ _
                rfl
              · refine pushSeeds_forall bm flFuel stop cand _ _ _ _ hps
                  (fun m hm => hsub m (htail m hm)) ?_
                intro le nl _ _
                refine hcand_sub.trans ?_
                rw [unionEdges_append]
                exact Finset.subset_union_left
              · refine pushSeeds_forall bm flFuel stop cand _ _ _ _ hps
                  (fun m hm => hstrict m (htail m hm)) ?_
                intro le nl hguard hnl _
                have hle_notin : le ∉ unionEdges cand.loops := by
                  rw [mem_unionEdges]
                  rintro ⟨l, hl, hmem⟩
                  have := List.any_eq_false.mp hguard l hl
                  simp at this
                  exact this hmem
                have hle_in : le ∈ unionEdges (cand.loops ++ [nl]) := by
                  rw [unionEdges_append]
                  exact Finset.mem_union_right _ (findLoop_seed_mem bm le
                    cand.end_vertex stop flFuel nl hnl)
                have hsub2 : pl.edge_set ⊆ unionEdges (cand.loops ++ [nl]) := by
                  refine hcand_sub.trans ?_
                  rw [unionEdges_append]
                  exact Finset.subset_union_left
                exact (Finset.ssubset_iff_of_subset hsub2).mpr
                  ⟨le, hle_in, fun hc => hle_notin (hcand_sub hc)⟩
              · refine pushSeeds_forall bm flFuel stop cand _ _ _ _ hps
                  (fun m hm => hlast m (htail m hm)) ?_
                intro le nl _ _
                have : cand.length ≤ totalLen (cand.loops ++ [nl]) := by
                  rw [totalLen_append, ← hcand_len2]
                  omega
                exact hcand_last.trans this

theorem findLoop_vertices_ne_nil (bm : Mesh) (e v : Nat) (stop : Finset Nat)
    (fuel : Nat) (l : PureEdgeLoop) (h : findLoop bm e v stop fuel = some l) :
    l.vertices ≠ [] := by
  rw [findLoop, Option.map_eq_some'] at h
  obtain ⟨⟨l2, r⟩, hr, hl⟩ := h
  subst hl
  exact (findLoopAux_vertices_head bm e stop fuel _ _ _ _ _ _ (by simp) hr).2

theorem pureEdgeLoop_vertices_ne_nil (bm : Mesh) (edge fuel : Nat)
    (pl : PureEdgeLoop) (h : pureEdgeLoop bm edge fuel = some pl) :
    pl.vertices ≠ [] := by
  rw [pureEdgeLoop] at h
  split at h
  · exact absurd h (by simp)
  · rename_i part hpart
    split at h
    · obtain rfl : part = pl := by simpa [eq_comm] using h
      exact findLoop_vertices_ne_nil bm _ _ _ _ _ hpart
    · split at h
      · exact absurd h (by simp)
      · rename_i result hres
        split at h
        · obtain rfl : (⟨result.vertices.reverse, result.edges.reverse,
              result.edges.toFinset⟩ : PureEdgeLoop) = pl := by
            simpa [eq_comm] using h
          simpa using findLoop_vertices_ne_nil bm _ _ _ _ _ hres
        · obtain rfl : result = pl := by simpa [eq_comm] using h
          exact findLoop_vertices_ne_nil bm _ _ _ _ _ hres

theorem isClosed_of_cons (l : PureEdgeLoop) (a : Nat) (t : List Nat)
    (hv : l.vertices = a :: t) :
    l.isClosed = decide ((a :: t).getLastD 0 = a) := by
  obtain ⟨vs, es, st⟩ := l
  simp only at hv
  subst hv
  rfl

/-! ## C2 and C3: order and duplicates of `get_edge_loops` results -/

/-- C2 counterexample: on `meshB2`, `get_edge_loops` for edge 2 returns the
edge sets `{2,0,1}`, `{2,0,1,4,5}`, `{2,0,1,3}` in that order; the third has
four edges and the second five, so the list is not ordered by non-decreasing
edge count of its edge sets.  (The third closure walks one fresh shortcut
edge and then re-traverses two edges of the pure loop, so its priority — the
traversed edge count, 6 — exceeds the second closure's 5 while its edge set
is smaller.) -/
theorem c2_counterexample :
    (getEdgeLoops meshB2 2 50).map
        (fun L => (L.length, (L.getD 1 ∅).card, (L.getD 2 ∅).card)) =
      some (3, 5, 4) ∧ (4 : Nat) < 5 := by
  refine ⟨by decide, by decide⟩

/-- C2 amended: the first entry of `get_edge_loops` is the edge set of the
maximal pure loop containing the edge, and the entries are emitted in
non-decreasing order of the search node length — the total number of edges
traversed by the chain of segments, counting re-traversed edges once per
traversal.  On meshes whose segments never overlap this is the edge-set
cardinality, but in general the cardinalities need not be non-decreasing. -/
theorem c2_amended (bm : Mesh) (edge fuel : Nat) (pl : PureEdgeLoop)
    (res : List (Finset Nat × Nat))
    (hpl : pureEdgeLoop bm edge fuel = some pl)
    (h : getEdgeLoopsAnn bm edge fuel = some res) :
    res.head? = some (pl.edge_set, pl.edges.length) ∧
      (res.map Prod.snd).Chain' (· ≤ ·) := by
  rw [getEdgeLoopsAnn] at h
  split at h
  · exact absurd h (by simp)
  · rename_i pl2 hpl2
    rw [hpl] at hpl2
    rw [(Option.some.inj hpl2).symm] at h
    split at h
    · obtain rfl : [(pl.edge_set, pl.edges.length)] = res := by
        simpa using h
      exact ⟨rfl, by simp⟩
    · rename_i hcl
      have hnn := pureEdgeLoop_vertices_ne_nil bm edge fuel pl hpl
      obtain ⟨a, t, hv⟩ := List.exists_cons_of_ne_nil hnn
      have hendne : pl.vertices.getLastD 0 ≠ pl.vertices.headD 0 := by
        rw [isClosed_of_cons pl a t hv] at hcl
        simp only [decide_eq_true_eq] at hcl
        simpa [hv] using hcl
      have hinv : QInv pl (pl.vertices.headD 0)
          [⟨pl.edges.length, pl.vertices.getLastD 0, [pl]⟩]
          [(pl.edge_set, pl.edges.length)] := by
        refine ⟨by simp, ?_, ?_, ?_, ?_, by simp, by simp⟩
        · intro m hm
          obtain rfl : m = (⟨pl.edges.length, pl.vertices.getLastD 0, [pl]⟩ :
              LoopSearchNode) := by simpa using hm
          simp [totalLen]
        · intro m hm
          obtain rfl : m = (⟨pl.edges.length, pl.vertices.getLastD 0, [pl]⟩ :
              LoopSearchNode) := by simpa using hm
          simp [unionEdges]
        · intro m hm he
          obtain rfl : m = (⟨pl.edges.length, pl.vertices.getLastD 0, [pl]⟩ :
              LoopSearchNode) := by simpa using hm
          exact absurd he hendne
        · intro m hm
          obtain rfl : m = (⟨pl.edges.length, pl.vertices.getLastD 0, [pl]⟩ :
              LoopSearchNode) := by simpa using hm
          simp
      obtain ⟨⟨suf, hres2, hsuf⟩, hch⟩ :=
        gelAux_master bm fuel (pl.vertices.headD 0) {pl.vertices.headD 0} pl
          fuel _ _ _ _ h hinv
      subst hres2
      exact ⟨by simp, hch⟩

/-- Witness for `c2_amended` at the concrete mesh `meshB2`. -/
theorem c2_amended_witness :
    ((getEdgeLoopsAnn meshB2 2 50).getD []).head? =
        some (((pureEdgeLoop meshB2 2 50).getD ⟨[], [], ∅⟩).edge_set,
          ((pureEdgeLoop meshB2 2 50).getD ⟨[], [], ∅⟩).edges.length) ∧
      (((getEdgeLoopsAnn meshB2 2 50).getD []).map Prod.snd).Chain' (· ≤ ·) :=
  c2_amended meshB2 2 50 _ _ rfl rfl

/-- C3 counterexample: on `meshB3`, `get_edge_loops` for edge 4 returns four
edge sets of which the third and the fourth are equal (two expansion walks
traverse the doubled edges 2 and 3 in opposite orders and then continue
identically), so the result contains two equal edge sets. -/
theorem c3_counterexample :
    (getEdgeLoops meshB3 4 50).map
        (fun L => (L.length, decide (L.getD 2 ∅ = L.getD 3 ∅), decide L.Nodup)) =
      some (4, true, false) := by
  decide

/-- C3 amended: no later entry of `get_edge_loops` equals the first entry —
every later entry strictly contains the first entry's edge set, since each
closure chain adds at least one edge outside the pure loop — but two later
entries may be equal to each other on non-manifold geometry (see the
counterexample). -/
theorem c3_amended (bm : Mesh) (edge fuel : Nat) (pl : PureEdgeLoop)
    (L : List (Finset Nat))
    (hpl : pureEdgeLoop bm edge fuel = some pl)
    (h : getEdgeLoops bm edge fuel = some L) :
    L.head? = some pl.edge_set ∧ ∀ s ∈ L.tail, pl.edge_set ⊂ s := by
  rw [getEdgeLoops, Option.map_eq_some'] at h
  obtain ⟨res, hres, rfl⟩ := h
  rw [getEdgeLoopsAnn] at hres
  split at hres
  · exact absurd hres (by simp)
  · rename_i pl2 hpl2
    rw [hpl] at hpl2
    rw [(Option.some.inj hpl2).symm] at hres
    split at hres
    · obtain rfl : [(pl.edge_set, pl.edges.length)] = res := by
        simpa using hres
      exact ⟨rfl, by simp⟩
    · rename_i hcl
      have hnn := pureEdgeLoop_vertices_ne_nil bm edge fuel pl hpl
      obtain ⟨a, t, hv⟩ := List.exists_cons_of_ne_nil hnn
      have hendne : pl.vertices.getLastD 0 ≠ pl.vertices.headD 0 := by
        rw [isClosed_of_cons pl a t hv] at hcl
        simp only [decide_eq_true_eq] at hcl
        simpa [hv] using hcl
      have hinv : QInv pl (pl.vertices.headD 0)
          [⟨pl.edges.length, pl.vertices.getLastD 0, [pl]⟩]
          [(pl.edge_set, pl.edges.length)] := by
        refine ⟨by simp, ?_, ?_, ?_, ?_, by simp, by simp⟩
        · intro m hm
          obtain rfl : m = (⟨pl.edges.length, pl.vertices.getLastD 0, [pl]⟩ :
              LoopSearchNode) := by simpa using hm
          simp [totalLen]
        · intro m hm
          obtain rfl : m = (⟨pl.edges.length, pl.vertices.getLastD 0, [pl]⟩ :
              LoopSearchNode) := by simpa using hm
          simp [unionEdges]
        · intro m hm he
          obtain rfl : m = (⟨pl.edges.length, pl.vertices.getLastD 0, [pl]⟩ :
              LoopSearchNode) := by simpa using hm
          exact absurd he hendne
        · intro m hm
          obtain rfl : m = (⟨pl.edges.length, pl.vertices.getLastD 0, [pl]⟩ :
              LoopSearchNode) := by simpa using hm
          simp
      obtain ⟨⟨suf, hres2, hsuf⟩, hch⟩ :=
        gelAux_master bm fuel (pl.vertices.headD 0) {pl.vertices.headD 0} pl
          fuel _ _ _ _ hres hinv
      subst hres2
      refine ⟨by simp, ?_⟩
      intro s hs
      rw [show (([(pl.edge_set, pl.edges.length)] ++ suf).map Prod.fst).tail =
        suf.map Prod.fst by simp] at hs
      obtain ⟨p, hp, rfl⟩ := List.mem_map.mp hs
      exact hsuf p hp

/-- Witness for `c3_amended` at the concrete mesh `meshB3`. -/
theorem c3_amended_witness :
    ((getEdgeLoops meshB3 4 50).getD []).head? =
        some ((pureEdgeLoop meshB3 4 50).getD ⟨[], [], ∅⟩).edge_set ∧
      ∀ s ∈ ((getEdgeLoops meshB3 4 50).getD []).tail,
        ((pureEdgeLoop meshB3 4 50).getD ⟨[], [], ∅⟩).edge_set ⊂ s :=
  c3_amended meshB3 4 50 _ _ rfl rfl

/-! ## C5 and C6: selection snapshot capture/restore -/

theorem rebuild_sel (l : List Bool) :
    ((List.range l.length).map fun i => decide (i ∈ selIdx l)) = l := by
  apply List.ext_getElem
  · simp
  · intro i h1 h2
    simp only [List.getElem_map, List.getElem_range]
    have hmem : i ∈ selIdx l ↔ l.getD i false = true := by
      simp only [selIdx, List.mem_toFinset, List.mem_filter, List.mem_range]
      constructor
      · exact fun hx => hx.2
      · intro hx
        simp only [List.length_map, List.length_range] at h2
        exact ⟨h2, hx⟩
    rw [show (decide (i ∈ selIdx l)) = decide (l.getD i false = true) by
      simp [hmem]]
    simp only [List.length_map, List.length_range] at h2
    rw [List.getD_eq_getElem l false h2]
    cases l[i] <;> simp

theorem flushMode_mode (bm : Mesh) (s : BState) : (flushMode bm s).mode = s.mode := by
  rw [flushMode]
  split
  · rfl
  · split <;> rfl

theorem flushMode_active (bm : Mesh) (s : BState) :
    (flushMode bm s).active = s.active := by
  rw [flushMode]
  split
  · rfl
  · split <;> rfl

/-- C5: capturing a selection state and immediately restoring it against the
unchanged mesh returns the selection-mode flags, the selection of the
element kind matching the active mode, and the active element to their
pre-capture values, for every single-mode state (vertex-only, edge-only or
face-only) whose active element, if any, is a valid element. -/
theorem c5_roundtrip (bm : Mesh) (st : BState) (hm : singleMode st.mode)
    (ha : activeOk st) :
    ∃ st2, restore bm (fromContext st) st = Except.ok st2 ∧
      st2.mode = st.mode ∧ modeSel st2 = modeSel st ∧ st2.active = st.active := by
  obtain ⟨mo, vsel, esel, fsel, act⟩ := st
  rcases hm with hm | hm | hm <;>
    (simp only at hm; subst hm) <;>
    rcases act with _ | ⟨k, i⟩ <;>
    [skip; (rcases k with _ | _ | _); skip; (rcases k with _ | _ | _); skip;
      (rcases k with _ | _ | _)] <;>
    simp_all [restore, fromContext, flushMode, modeSel, rebuild_sel, pyIndex,
      activeOk, kindCount]

/-- Witness for `c5_roundtrip`: a vertex-mode state with an active vertex. -/
theorem c5_roundtrip_witness :
    ∃ st2, restore meshW
        (fromContext ⟨(true, false, false), [true, false, true], [false], [true],
          some (.vert, 2)⟩)
        ⟨(true, false, false), [true, false, true], [false], [true],
          some (.vert, 2)⟩ = Except.ok st2 ∧
      st2.mode = (true, false, false) ∧
      modeSel st2 = [true, false, true] ∧
      st2.active = some (.vert, 2) :=
  c5_roundtrip meshW
    ⟨(true, false, false), [true, false, true], [false], [true], some (.vert, 2)⟩
    (Or.inl rfl) (by simp [activeOk, kindCount])

/-- C6 counterexample: a state captured on a two-vertex mesh with active
vertex 1 and restored against a one-vertex state does not complete silently:
indexing the stale id raises (modelled as `Except.error`), instead of
leaving the active element unset. -/
theorem c6_counterexample :
    restore meshW
        (fromContext ⟨(true, false, false), [true, true], [], [],
          some (.vert, 1)⟩)
        ⟨(true, false, false), [false], [], [], none⟩ = Except.error () := by
  rfl

/-- The selection that `restore` writes for the kind matched by the saved
mode flags (loops.py:204-212): element `i` of the current mesh becomes
selected exactly when `i` lies in the corresponding saved id set. -/
def restoredSel (sv : SavedSelectionState) (st : BState) : List Bool :=
  if sv.mode.1 then
    (List.range st.vsel.length).map fun i => decide (i ∈ sv.selected_verts)
  else if sv.mode.2.1 then
    (List.range st.esel.length).map fun i => decide (i ∈ sv.selected_edges)
  else
    (List.range st.fsel.length).map fun i => decide (i ∈ sv.selected_faces)

/-- C6 amended: `restore` tolerates only the no-active-element case — when
the captured active id is `-1` it completes, restores the mode flags and the
mode-matching selection (each element selected exactly when its id lies in
the saved set) and leaves the active element untouched; a captured active
reference that no longer resolves (out-of-range id, or an unknown active
type with a nonnegative id) raises an index error instead of being silently
ignored. -/
theorem c6_amended (bm : Mesh) (sv : SavedSelectionState) (st : BState)
    (h : sv.active = -1) :
    ∃ st2, restore bm sv st = Except.ok st2 ∧ st2.mode = sv.mode ∧
      modeSel st2 = restoredSel sv st ∧ st2.active = st.active := by
  unfold restore
  rw [h]
  simp only [if_pos]
  refine ⟨_, rfl, ?_, ?_, ?_⟩
  · rw [flushMode_mode]
    split
    · rfl
    · split <;> rfl
  · cases hm1 : sv.mode.1 with
    | true => simp [restoredSel, flushMode, modeSel, hm1]
    | false =>
      cases hm2 : sv.mode.2.1 with
      | true => simp [restoredSel, flushMode, modeSel, hm1, hm2]
      | false => simp [restoredSel, flushMode, modeSel, hm1, hm2]
  · rw [flushMode_active]
    split
    · rfl
    · split <;> rfl

/-- Witness for `c6_amended`: restoring a captured no-active snapshot. -/
theorem c6_amended_witness :
    ∃ st2, restore meshW ⟨(false, true, false), ∅, {0}, ∅, none, -1⟩
        ⟨(true, true, true), [true], [false, true], [true], some (.face, 0)⟩ =
        Except.ok st2 ∧
      st2.mode = (false, true, false) ∧
      modeSel st2 = restoredSel ⟨(false, true, false), ∅, {0}, ∅, none, -1⟩
        ⟨(true, true, true), [true], [false, true], [true], some (.face, 0)⟩ ∧
      st2.active = some (.face, 0) :=
  c6_amended meshW ⟨(false, true, false), ∅, {0}, ∅, none, -1⟩
    ⟨(true, true, true), [true], [false, true], [true], some (.face, 0)⟩ rfl

/-! ## C4 and C9: correctness of `find_shortest_path`

The graph underlying the search is the adjacency relation built from the
non-excluded edges; a walk is a vertex list whose consecutive vertices are
adjacent. -/

/-- `w` is a neighbour of `v` across some non-excluded edge. -/
def adjP (bm : Mesh) (ex : Finset Nat) (v w : Nat) : Prop := w ∈ nbrs bm ex v

/-- `l` is a walk from `s` to `e` in the mesh graph with `ex` removed. -/
def WalkFT (bm : Mesh) (ex : Finset Nat) (s e : Nat) (l : List Nat) : Prop :=
  l.head? = some s ∧ l.getLast? = some e ∧ l.Chain' (adjP bm ex)

/-- The BFS invariant: every queue entry carries a genuine walk from the
start to its vertex; queue paths are FIFO-leveled (pairwise within one of
each other, non-decreasing); every neighbour of a finalized vertex is
finalized or queued with a path not longer than any walk to the finalized
vertex; and the start is finalized or queued with the empty path. -/
def SPInv (bm : Mesh) (ex : Finset Nat) (s : Nat)
    (q : List (Nat × List Nat)) (S : Finset Nat) : Prop :=
  (∀ x ∈ q, WalkFT bm ex s x.1 (x.2 ++ [x.1])) ∧
  q.Pairwise (fun a b => a.2.length ≤ b.2.length ∧ b.2.length ≤ a.2.length + 1) ∧
  (∀ z ∈ S, ∀ y, adjP bm ex z y → y ∈ S ∨ ∃ x ∈ q, x.1 = y ∧
    ∀ l, WalkFT bm ex s z l → x.2.length ≤ l.length) ∧
  (s ∈ S ∨ ∃ x ∈ q, x.1 = s ∧ x.2 = [])

theorem walkFT_ne_nil {bm : Mesh} {ex : Finset Nat} {s e : Nat} {l : List Nat}
    (h : WalkFT bm ex s e l) : l ≠ [] := by
  intro hc
  subst hc
  exact absurd h.1 (by simp)

theorem walkFT_snoc_split {bm : Mesh} {ex : Finset Nat} {s e : Nat}
    {l : List Nat} {w : Nat} (hl : l ≠ []) (h : WalkFT bm ex s e (l ++ [w])) :
    w = e ∧ WalkFT bm ex s (l.getLastD 0) l ∧ adjP bm ex (l.getLastD 0) w := by
  obtain ⟨hh, hlst, hch⟩ := h
  obtain ⟨a, t, rfl⟩ := List.exists_cons_of_ne_nil hl
  have hwe : w = e := by
    rw [List.getLast?_concat] at hlst
    simpa [eq_comm] using hlst
  rw [List.chain'_append] at hch
  obtain ⟨hch1, _, hlink⟩ := hch
  have hgl : (a :: t).getLast? = some ((a :: t).getLastD 0) := by
    rw [List.getLastD_eq_getLast?]
    cases hgl2 : (a :: t).getLast? with
    | none => exact absurd hgl2 (by simp)
    | some x => rfl
  refine ⟨hwe, ⟨by simpa using hh, hgl, hch1⟩, ?_⟩
  refine hlink _ ?_ w (by simp)
  exact hgl ▸ (by simp [← hgl])

/-- Every walk to a non-finalized vertex is witnessed in the queue by an
entry whose path is strictly shorter than the walk. -/
theorem spReachBound (bm : Mesh) (ex : Finset Nat) (s : Nat)
    (q : List (Nat × List Nat)) (S : Finset Nat)
    (hinv : SPInv bm ex s q S) :
    ∀ l w, WalkFT bm ex s w l → w ∉ S → ∃ x ∈ q, x.2.length + 1 ≤ l.length := by
  obtain ⟨hI1, hpw, hC5, hC0⟩ := hinv
  intro l
  induction l using List.reverseRecOn with
  | nil => intro w hw _; exact absurd (walkFT_ne_nil hw) (by simp)
  | append_singleton l2 w2 ih =>
    intro w hw hwS
    by_cases hl2 : l2 = []
    · subst hl2
      have hws : w2 = s := by simpa using hw.1
      have hsw : w2 = w := by simpa using hw.2.1
      have hwse : w = s := by rw [← hsw]; exact hws
      subst hwse
      rcases hC0 with hs | ⟨x, hx, hx1, hx2⟩
      · exact absurd hs hwS
      · exact ⟨x, hx, by simp [hx2]⟩
    · obtain ⟨hwe, hwalk2, hadj⟩ := walkFT_snoc_split hl2 hw
      subst hwe
      by_cases hz : l2.getLastD 0 ∈ S
      · rcases hC5 _ hz _ hadj with hyS | ⟨x, hx, _, hbound⟩
        · exact absurd hyS hwS
        · refine ⟨x, hx, ?_⟩
          have := hbound l2 hwalk2
          simp only [List.length_append, List.length_cons]
          omega
      · obtain ⟨x, hx, hlen⟩ := ih _ hwalk2 hz
        refine ⟨x, hx, ?_⟩
        simp only [List.length_append]
        omega

/-- The first non-skipped pop is optimal: its path is no longer than any
walk from the start to the popped vertex. -/
theorem spPopMin (bm : Mesh) (ex : Finset Nat) (s u : Nat) (p : List Nat)
    (t : List (Nat × List Nat)) (S : Finset Nat)
    (hinv : SPInv bm ex s ((u, p) :: t) S) (hu : u ∉ S) :
    ∀ l, WalkFT bm ex s u l → p.length + 1 ≤ l.length := by
  intro l hl
  obtain ⟨x, hx, hlen⟩ := spReachBound bm ex s _ S hinv l u hl hu
  rcases List.mem_cons.mp hx with rfl | hx
  · simpa using hlen
  · have hple : p.length ≤ x.2.length :=
      ((List.pairwise_cons.mp hinv.2.1).1 x hx).1
    omega

theorem spPushes_shape (bm : Mesh) (ex : Finset Nat) (v : Nat) (path : List Nat) :
    ∀ x ∈ spPushes bm ex v path, x.2 = path ++ [v] ∧ x.1 ∈ nbrs bm ex v := by
  intro x hx
  rw [spPushes] at hx
  obtain ⟨w, hw, rfl⟩ := List.mem_map.mp hx
  refine ⟨rfl, ?_⟩
  rcases List.mem_append.mp hw with hw | hw
  · exact List.mem_of_mem_filter (List.mem_dedup.mp hw)
  · exact List.mem_of_mem_filter hw

theorem spPushes_complete (bm : Mesh) (ex : Finset Nat) (v : Nat) (path : List Nat) :
    ∀ w ∈ nbrs bm ex v, (w, path ++ [v]) ∈ spPushes bm ex v path := by
  intro w hw
  rw [spPushes]
  refine List.mem_map.mpr ⟨w, ?_, rfl⟩
  by_cases hc : nonSharingCond bm path w = true
  · exact List.mem_append_left _ (List.mem_dedup.mpr (List.mem_filter.mpr ⟨hw, hc⟩))
  · refine List.mem_append_right _ (List.mem_filter.mpr ⟨hw, ?_⟩)
    simp only [decide_eq_true_eq]
    intro hmem
    exact hc (List.mem_filter.mp (List.mem_dedup.mp hmem)).2

theorem spInv_skip (bm : Mesh) (ex : Finset Nat) (s v : Nat) (p : List Nat)
    (t : List (Nat × List Nat)) (S : Finset Nat)
    (hinv : SPInv bm ex s ((v, p) :: t) S) (hv : v ∈ S) :
    SPInv bm ex s t S := by
  obtain ⟨hI1, hpw, hC5, hC0⟩ := hinv
  refine ⟨fun x hx => hI1 x (by simp [hx]), hpw.of_cons, ?_, ?_⟩
  · intro z hz y hy
    rcases hC5 z hz y hy with hyS | ⟨x, hx, hx1, hb⟩
    · exact Or.inl hyS
    · rcases List.mem_cons.mp hx with rfl | hx
      · exact Or.inl (hx1 ▸ hv)
      · exact Or.inr ⟨x, hx, hx1, hb⟩
  · rcases hC0 with hs | ⟨x, hx, hx1, hx2⟩
    · exact Or.inl hs
    · rcases List.mem_cons.mp hx with rfl | hx
      · exact Or.inl (hx1 ▸ hv)
      · exact Or.inr ⟨x, hx, hx1, hx2⟩

theorem spInv_expand (bm : Mesh) (ex : Finset Nat) (s u : Nat) (p : List Nat)
    (t : List (Nat × List Nat)) (S : Finset Nat)
    (hinv : SPInv bm ex s ((u, p) :: t) S) (hu : u ∉ S) :
    SPInv bm ex s (t ++ spPushes bm ex u p) (insert u S) := by
  have hmin := spPopMin bm ex s u p t S hinv hu
  obtain ⟨hI1, hpw, hC5, hC0⟩ := hinv
  have hwalk_u : WalkFT bm ex s u (p ++ [u]) := hI1 (u, p) (by simp)
  have hpw2 := List.pairwise_cons.mp hpw
  refine ⟨?_, ?_, ?_, ?_⟩
  · intro x hx
    rcases List.mem_append.mp hx with hx | hx
    · exact hI1 x (by simp [hx])
    · obtain ⟨hx2, hx1⟩ := spPushes_shape bm ex u p x hx
      rw [hx2]
      obtain ⟨hh, hlst, hch⟩ := hwalk_u
      refine ⟨?_, ?_, ?_⟩
      · rw [show (p ++ [u]) ++ [x.1] = p ++ ([u] ++ [x.1]) by simp]
        cases p with
        | nil => simpa using hh
        | cons a t2 => simpa using hh
      · rw [List.getLast?_concat]
      · rw [List.chain'_append]
        refine ⟨hch, by simp, ?_⟩
        intro a ha y hy
        have ha2 : a = u := by
          rw [List.getLast?_concat] at ha
          simpa [eq_comm] using ha
        have hy2 : y = x.1 := by simpa [eq_comm] using hy
        rw [ha2, hy2]
        exact hx1
  · rw [List.pairwise_append]
    refine ⟨hpw.of_cons, ?_, ?_⟩
    · refine List.pairwise_of_forall_mem_list ?_
      intro a ha b hb
      obtain ⟨ha2, _⟩ := spPushes_shape bm ex u p a ha
      obtain ⟨hb2, _⟩ := spPushes_shape bm ex u p b hb
      rw [ha2, hb2]
      omega
    · intro a ha b hb
      obtain ⟨hb2, _⟩ := spPushes_shape bm ex u p b hb
      have hab : p.length ≤ a.2.length ∧ a.2.length ≤ p.length + 1 :=
        hpw2.1 a ha
      rw [hb2]
      simp only [List.length_append, List.length_cons, List.length_nil]
      omega
  · intro z hz y hy
    rcases Finset.mem_insert.mp hz with rfl | hz
    · refine Or.inr ⟨(y, p ++ [z]), List.mem_append_right _
        (spPushes_complete bm ex z p y hy), rfl, ?_⟩
      intro l hl
      have := hmin l hl
      simp only [List.length_append, List.length_cons, List.length_nil]
      omega
    · rcases hC5 z hz y hy with hyS | ⟨x, hx, hx1, hb⟩
      · exact Or.inl (Finset.mem_insert_of_mem hyS)
      · rcases List.mem_cons.mp hx with rfl | hx
        · exact Or.inl (hx1 ▸ Finset.mem_insert_self u S)
        · exact Or.inr ⟨x, List.mem_append_left _ hx, hx1, hb⟩
  · rcases hC0 with hs | ⟨x, hx, hx1, hx2⟩
    · exact Or.inl (Finset.mem_insert_of_mem hs)
    · rcases List.mem_cons.mp hx with rfl | hx
      · exact Or.inl (hx1 ▸ Finset.mem_insert_self u S)
      · exact Or.inr ⟨x, List.mem_append_left _ hx, hx1, hx2⟩

theorem spAux_found (bm : Mesh) (ex : Finset Nat) (s e : Nat) :
    ∀ fuel q S p, spAux bm ex e fuel q S = some (some p) →
      SPInv bm ex s q S →
      WalkFT bm ex s e p ∧ ∀ l, WalkFT bm ex s e l → p.length ≤ l.length := by
  intro fuel
  induction fuel with
  | zero => intro q S p h _; exact absurd h (by simp [spAux])
  | succ n ih =>
    intro q S p h hinv
    match q with
    | [] => exact absurd h (by simp [spAux])
    | (v, path) :: rest =>
      rw [spAux] at h
      split at h
      · rename_i hvS
        exact ih rest S p h (spInv_skip bm ex s v path rest S hinv hvS)
      · rename_i hvS
        split at h
        · rename_i hve
          subst hve
          obtain rfl : path ++ [v] = p := by simpa [eq_comm] using h
          refine ⟨hinv.1 (v, path) (by simp), ?_⟩
          intro l hl
          have := spPopMin bm ex s v path rest S hinv hvS l hl
          simpa using this
        · rename_i hve
          exact ih _ _ p h (spInv_expand bm ex s v path rest S hinv hvS)

theorem spAux_exhausted (bm : Mesh) (ex : Finset Nat) (s e : Nat) :
    ∀ fuel q S, spAux bm ex e fuel q S = some none →
      SPInv bm ex s q S → e ∉ S →
      ∀ l, ¬ WalkFT bm ex s e l := by
  intro fuel
  induction fuel with
  | zero => intro q S h _ _; exact absurd h (by simp [spAux])
  | succ n ih =>
    intro q S h hinv heS
    match q with
    | [] =>
      intro l hl
      obtain ⟨x, hx, _⟩ := spReachBound bm ex s [] S hinv l e hl heS
      exact absurd hx (by simp)
    | (v, path) :: rest =>
      rw [spAux] at h
      split at h
      · rename_i hvS
        exact ih rest S h (spInv_skip bm ex s v path rest S hinv hvS) heS
      · rename_i hvS
        split at h
        · exact absurd h (by simp)
        · rename_i hve
          refine ih _ _ h (spInv_expand bm ex s v path rest S hinv hvS) ?_
          intro hc
          rcases Finset.mem_insert.mp hc with rfl | hc
          · exact hve rfl
          · exact heS hc

theorem flatMap_length_le {α β : Type} (f : α → List β) (k : Nat)
    (hf : ∀ a, (f a).length ≤ k) : ∀ l : List α, (l.flatMap f).length ≤ k * l.length := by
  intro l
  induction l with
  | nil => simp
  | cons a t ih =>
    rw [List.flatMap_cons, List.length_append, List.length_cons, Nat.mul_succ]
    have := hf a
    omega

theorem nbrs_length_le (bm : Mesh) (ex : Finset Nat) (v : Nat) :
    (nbrs bm ex v).length ≤ 2 * bm.edges.length := by
  rw [nbrs]
  refine le_trans (flatMap_length_le _ 2 ?_ _) ?_
  · intro e
    split <;> split <;> simp
  · have := List.length_filter_le (fun e => decide (e ∉ ex)) (List.range bm.edges.length)
    simp only [List.length_range] at this
    omega

theorem spPushes_length_le (bm : Mesh) (ex : Finset Nat) (v : Nat) (path : List Nat) :
    (spPushes bm ex v path).length ≤ 4 * bm.edges.length := by
  rw [spPushes]
  simp only [List.length_map, List.length_append]
  have h1 := List.Sublist.length_le
    (List.dedup_sublist ((nbrs bm ex v).filter fun w => nonSharingCond bm path w))
  have h2 := List.length_filter_le (fun w => nonSharingCond bm path w) (nbrs bm ex v)
  have h3 := List.length_filter_le
    (fun w => decide (w ∉ ((nbrs bm ex v).filter fun w =>
      nonSharingCond bm path w).dedup)) (nbrs bm ex v)
  have h4 := nbrs_length_le bm ex v
  omega

theorem spAux_fuel (bm : Mesh) (ex : Finset Nat) (e : Nat) (U : Finset Nat)
    (hU : ∀ v w, w ∈ nbrs bm ex v → w ∈ U) :
    ∀ fuel q S, (∀ x ∈ q, x.1 ∈ U) →
      (U \ S).card * (4 * bm.edges.length + 2) + q.length < fuel →
      spAux bm ex e fuel q S ≠ none := by
  intro fuel
  induction fuel with
  | zero => intro q S _ hm; exact absurd hm (by omega)
  | succ n ih =>
    intro q S hq hm
    match q with
    | [] => simp [spAux]
    | (v, path) :: rest =>
      rw [spAux]
      split
      · refine ih rest S (fun x hx => hq x (by simp [hx])) ?_
        simp only [List.length_cons] at hm
        omega
      · split
        · simp
        · rename_i hvS hve
          refine ih _ _ ?_ ?_
          · intro x hx
            rcases List.mem_append.mp hx with hx | hx
            · exact hq x (by simp [hx])
            · exact hU v x.1 (spPushes_shape bm ex v path x hx).2
          · have hvU : v ∈ U := hq (v, path) (by simp)
            have hvin : v ∈ U \ S := Finset.mem_sdiff.mpr ⟨hvU, hvS⟩
            have hcard : (U \ insert v S).card + 1 = (U \ S).card := by
              rw [show U \ insert v S = (U \ S).erase v by
                ext x
                simp [Finset.mem_sdiff, Finset.mem_erase, Finset.mem_insert]
                tauto]
              rw [Finset.card_erase_of_mem hvin]
              have := Finset.card_pos.mpr ⟨v, hvin⟩
              omega
            have hpush := spPushes_length_le bm ex v path
            rw [← hcard, Nat.succ_mul] at hm
            simp only [List.length_cons] at hm
            simp only [List.length_append]
            omega

theorem mem_endpoint_fold (l : List (Nat × Nat)) :
    ∀ p ∈ l, p.1 ∈ l.foldr (fun p acc => insert p.1 (insert p.2 acc)) (∅ : Finset Nat) ∧
      p.2 ∈ l.foldr (fun p acc => insert p.1 (insert p.2 acc)) (∅ : Finset Nat) := by
  induction l with
  | nil => intro p hp; exact absurd hp (by simp)
  | cons a t ih =>
    intro p hp
    rcases List.mem_cons.mp hp with rfl | hp
    · constructor
      · exact Finset.mem_insert_self _ _
      · exact Finset.mem_insert_of_mem (Finset.mem_insert_self _ _)
    · obtain ⟨h1, h2⟩ := ih p hp
      exact ⟨Finset.mem_insert_of_mem (Finset.mem_insert_of_mem h1),
        Finset.mem_insert_of_mem (Finset.mem_insert_of_mem h2)⟩

theorem nbrs_mem_univ (bm : Mesh) (ex : Finset Nat) (s : Nat) :
    ∀ v w, w ∈ nbrs bm ex v → w ∈ spUniv bm s := by
  intro v w hw
  rw [nbrs] at hw
  obtain ⟨e, he, hw2⟩ := List.mem_flatMap.mp hw
  have helt : e < bm.edges.length := by
    simpa using List.mem_range.mp (List.mem_of_mem_filter he)
  have hmem : edgeData bm e ∈ bm.edges := by
    rw [edgeData, List.getD_eq_getElem bm.edges (0, 0) helt]
    exact List.getElem_mem helt
  obtain ⟨h1, h2⟩ := mem_endpoint_fold bm.edges (edgeData bm e) hmem
  rcases List.mem_append.mp hw2 with hw3 | hw3 <;> rw [spUniv]
  · split at hw3
    · obtain rfl : w = (edgeData bm e).2 := by simpa using hw3
      exact Finset.mem_insert_of_mem h2
    · exact absurd hw3 (by simp)
  · split at hw3
    · obtain rfl : w = (edgeData bm e).1 := by simpa using hw3
      exact Finset.mem_insert_of_mem h1
    · exact absurd hw3 (by simp)

theorem spInv_init (bm : Mesh) (ex : Finset Nat) (s : Nat) :
    SPInv bm ex s [(s, [])] ∅ := by
  refine ⟨?_, by simp, by simp, Or.inr ⟨(s, []), by simp, rfl, rfl⟩⟩
  intro x hx
  obtain rfl : x = (s, []) := by simpa using hx
  exact ⟨by simp, by simp, by simp⟩

theorem findShortestPath_spec (bm : Mesh) (s e : Nat) (ex : Finset Nat)
    (p : List Nat) (h : findShortestPath bm s e ex = some p) :
    WalkFT bm ex s e p ∧ ∀ l, WalkFT bm ex s e l → p.length ≤ l.length := by
  rw [findShortestPath] at h
  split at h
  · rename_i r hsp
    subst h
    exact spAux_found bm ex s e _ _ _ _ hsp (spInv_init bm ex s)
  · rename_i hsp
    exact absurd hsp (by
      refine spAux_fuel bm ex e (spUniv bm s) (nbrs_mem_univ bm ex s) _ _ _
        (by simp [spUniv]) ?_
      rw [spFuel, Finset.sdiff_empty]
      have hmul : ((spUniv bm s).card + 1) * (4 * bm.edges.length + 2) =
          (spUniv bm s).card * (4 * bm.edges.length + 2) +
            (4 * bm.edges.length + 2) := by ring
      simp only [List.length_cons, List.length_nil]
      omega)

/-- C4: when `find_shortest_path` returns a path, that path is a walk from
the start to the end vertex whose consecutive vertices are joined by
non-excluded edges, and no walk between the two vertices in the mesh graph
with the excluded edges removed is shorter — so its edge count is exactly
the minimum graph distance.  The face-sharing enqueue bias only reorders
entries within one BFS level and cannot change this length, which the
theorem shows by pinning the length to the graph-distance minimum, a
quantity independent of the enqueue order. -/
theorem findShortestPath_shortest (bm : Mesh) (s e : Nat) (ex : Finset Nat)
    (p : List Nat) (h : findShortestPath bm s e ex = some p) :
    WalkFT bm ex s e p ∧ ∀ l, WalkFT bm ex s e l → p.length ≤ l.length :=
  findShortestPath_spec bm s e ex p h

/-- Witness for `findShortestPath_shortest`: on the wire 3-star `meshW` the
path from vertex 1 to vertex 2 is `[1, 0, 2]`. -/
theorem findShortestPath_shortest_witness :
    WalkFT meshW ∅ 1 2 [1, 0, 2] ∧
      ∀ l, WalkFT meshW ∅ 1 2 l → ([1, 0, 2] : List Nat).length ≤ l.length :=
  findShortestPath_shortest meshW 1 2 ∅ [1, 0, 2] (by decide)

/-- C9: `find_shortest_path` returns no path exactly when the end vertex is
not reachable from the start in the mesh graph with the excluded edges
removed; otherwise it returns the first queue entry popped that reaches the
end vertex, which by `findShortestPath_shortest` is a shortest path. -/
theorem findShortestPath_none_iff (bm : Mesh) (s e : Nat) (ex : Finset Nat) :
    findShortestPath bm s e ex = none ↔ ∀ l, ¬ WalkFT bm ex s e l := by
  constructor
  · intro h
    rw [findShortestPath] at h
    split at h
    · rename_i r hsp
      subst h
      exact spAux_exhausted bm ex s e _ _ _ hsp (spInv_init bm ex s) (by simp)
    · rename_i hsp
      exact absurd hsp (by
        refine spAux_fuel bm ex e (spUniv bm s) (nbrs_mem_univ bm ex s) _ _ _
          (by simp [spUniv]) ?_
        rw [spFuel, Finset.sdiff_empty]
        have hmul : ((spUniv bm s).card + 1) * (4 * bm.edges.length + 2) =
          (spUniv bm s).card * (4 * bm.edges.length + 2) +
            (4 * bm.edges.length + 2) := by ring
        simp only [List.length_cons, List.length_nil]
        omega)
  · intro h
    cases hr : findShortestPath bm s e ex with
    | none => rfl
    | some p =>
      have := (findShortestPath_spec bm s e ex p hr).1
      exact absurd this (h p)
